import Mathlib

set_option maxRecDepth 40000

/-!
# GhostTrail — verification of the collector core

Shallow embedding of the GhostTrail collector (`src/collector/main.py` and
`src/collector/lineage.py`) together with proofs of the specification claims.

Conventions of the embedding:
* JSON values decoded by `json.loads` are modelled by the inductive `JVal`.
  Python `None` is `JVal.null`; Python `bool` is `JVal.bool` (note that in
  Python `bool` is a subclass of `int`, which `is_int_like` reflects);
  non-integer JSON numbers (floats) are outside the scope of the claims and
  are not modelled.
* Python dicts are modelled as association lists `List (String × JVal)` with
  Python's semantics: lookup finds the first binding, assignment updates the
  first binding in place or appends a new one at the end.
* The nondeterministic clock of `utc_now_iso` is modelled by passing the
  current UTC instant (`Instant`) explicitly.
* Strings are processed as `List Char`; the byte budgets of `_read_text`
  and the permissive utf-8 decoding are absorbed into the modelled file
  contents (a read failure is the empty string, as in the source).
-/

/-- A decoded JSON value (the possible results of `json.loads` relevant to
the collector; floats are outside the claims' scope). -/
inductive JVal where
  | null
  | bool (b : Bool)
  | int (n : Int)
  | str (s : String)
  | arr (xs : List JVal)
  | obj (fields : List (String × JVal))

/-- A Python dict of decoded JSON values: an association list, first binding
wins on lookup. -/
abbrev EventDict := List (String × JVal)

/-- `k in evt` / `evt.get(k)`: the first binding of `k`, if any. -/
def getEntry (evt : EventDict) (k : String) : Option JVal :=
  (evt.find? (fun p => p.1 = k)).map (fun p => p.2)

/-- `k in evt`. -/
def hasKey (evt : EventDict) (k : String) : Bool :=
  (getEntry evt k).isSome

/-- `evt[k]` where the key is known to be present; absent keys give `null`
(in Python this would raise `KeyError`, which is unreachable at the call
sites because presence is checked first). -/
def getV (evt : EventDict) (k : String) : JVal :=
  (getEntry evt k).getD JVal.null

/-- `evt[k] = v`: update the first binding of `k` in place, or append a new
binding (Python dict assignment preserves insertion order). -/
def setKey : EventDict → String → JVal → EventDict
  | [], k, v => [(k, v)]
  | (k', v') :: t, k, v =>
    if k' = k then (k, v) :: t else (k', v') :: setKey t k v

/-- Accumulator for Python `str.split(sep)` with an explicit one-character
separator: split on every occurrence, keeping empty segments. -/
def splitOnCharGo : List Char → Char → List Char → List (List Char)
  | [], _, acc => [acc.reverse]
  | c :: rest, sep, acc =>
    if c = sep then acc.reverse :: splitOnCharGo rest sep []
    else splitOnCharGo rest sep (c :: acc)

/-- Python `s.split(sep)` for a one-character separator. -/
def splitOnChar (l : List Char) (sep : Char) : List (List Char) :=
  splitOnCharGo l sep []

/-- Python `s.strip()`: drop leading and trailing whitespace. -/
def pyStrip (l : List Char) : List Char :=
  ((l.dropWhile Char.isWhitespace).reverse.dropWhile Char.isWhitespace).reverse

/-- Python `s.strip()` on `String`. -/
def pyStripStr (s : String) : String := String.mk (pyStrip s.data)

/-- Python `" ".join(parts)` on character lists. -/
def joinWithSpace : List (List Char) → List Char
  | [] => []
  | [w] => w
  | w :: ws => w ++ ' ' :: joinWithSpace ws

/-- `ALLOWED_EVENT_TYPES = {"file_open", "exec"}` (main.py line 14). -/
def ALLOWED_EVENT_TYPES : List String := ["file_open", "exec"]

/-- `ALLOWED_SOURCES = {"stdin", "ebpf"}` (main.py line 15). -/
def ALLOWED_SOURCES : List String := ["stdin", "ebpf"]

/-- Python `v in S` for a set `S` of strings: string equality against the
members; any non-string decoded JSON value is simply not a member.  (A
Python list/dict value would raise `TypeError: unhashable`; no claim
touches that case.) -/
def jvalInStrSet (v : JVal) (ss : List String) : Bool :=
  match v with
  | .str s => ss.contains s
  | _ => false

/-- `is_non_empty_str` (main.py lines 28-29):
`isinstance(x, str) and len(x.strip()) > 0`. -/
def is_non_empty_str (v : JVal) : Bool :=
  match v with
  | .str s => decide (0 < (pyStrip s.data).length)
  | _ => false

/-- `is_int_like` (main.py lines 32-33): `isinstance(x, int) and x >= 0`.
Python `bool` is a subclass of `int` with `True = 1`, `False = 0`, so both
booleans satisfy the check. -/
def is_int_like (v : JVal) : Bool :=
  match v with
  | .int n => decide (0 ≤ n)
  | .bool _ => true
  | _ => false

/-- A single-quote character, built numerically so the source text of this
file stays free of quote-literal pitfalls. -/
def squote : String := String.mk [Char.ofNat 39]

/-- `ValidationResult` (main.py lines 53-56). -/
structure ValidationResult where
  ok : Bool
  error : Option String := none
  deriving DecidableEq, Repr

/-- The `required` field list of `validate_event` (main.py line 61), in the
declared order. -/
def requiredFields : List String :=
  ["ts", "event_type", "pid", "ppid", "uid", "comm", "exe", "target", "source"]

/-! ## ISO-8601 timestamps

`parse_iso8601` (main.py lines 36-50) replaces a trailing `Z` and feeds the
result to `datetime.fromisoformat`.  We model the `fromisoformat` grammar
common to the CPython versions on canonical `datetime.isoformat()` output:
`YYYY-MM-DD[<sep>HH:MM:SS[.f{1..6}][±HH:MM]]`, with calendar-valid ranges
(leap years included).  The claims only exercise this common core. -/

/-- Leap-year test, as in the proleptic Gregorian calendar used by
`datetime`. -/
def isLeapYear (y : Nat) : Bool :=
  (y % 4 = 0 && y % 100 ≠ 0) || y % 400 = 0

/-- Days in a month, as validated by `datetime`. -/
def daysInMonth (y m : Nat) : Nat :=
  if m = 2 then (if isLeapYear y then 29 else 28)
  else if m = 4 || m = 6 || m = 9 || m = 11 then 30
  else 31

/-- Consume exactly `k` ASCII digits, most significant first, extending the
accumulator. -/
def parseDigitsAux : Nat → List Char → Nat → Option (Nat × List Char)
  | 0, l, acc => some (acc, l)
  | _ + 1, [], _ => none
  | k + 1, c :: l, acc =>
    if c.isDigit then parseDigitsAux k l (acc * 10 + (c.toNat - 48)) else none

/-- Consume exactly `k` ASCII digits as a number. -/
def parseDigits (k : Nat) (l : List Char) : Option (Nat × List Char) :=
  parseDigitsAux k l 0

/-- Expect a fixed character. -/
def expectChar (c : Char) : List Char → Option (List Char)
  | [] => none
  | x :: l => if x = c then some l else none

/-- Parse `HH:MM:SS` with range checks. -/
def parseHMS (l : List Char) : Option (Nat × Nat × Nat × List Char) :=
  match parseDigits 2 l with
  | none => none
  | some (hh, l) =>
    match expectChar (Char.ofNat 58) l with
    | none => none
    | some l =>
      match parseDigits 2 l with
      | none => none
      | some (mm, l) =>
        match expectChar (Char.ofNat 58) l with
        | none => none
        | some l =>
          match parseDigits 2 l with
          | none => none
          | some (ss, l) =>
            if hh < 24 && mm < 60 && ss < 60 then some (hh, mm, ss, l)
            else none

/-- Parse an optional fractional-seconds part `.f{1..6}`. -/
def parseFraction : List Char → Option (List Char)
  | c :: l =>
    if c = Char.ofNat 46 then
      let ds := l.takeWhile Char.isDigit
      if 1 ≤ ds.length && ds.length ≤ 6 then some (l.dropWhile Char.isDigit)
      else none
    else some (c :: l)
  | [] => some []

/-- Parse a UTC-offset suffix `±HH:MM` (the shape produced for aware
datetimes; `+00:00` after the `Z` replacement). -/
def parseOffset : List Char → Option (List Char)
  | [] => some []
  | c :: l =>
    if c = Char.ofNat 43 || c = Char.ofNat 45 then
      match parseDigits 2 l with
      | none => none
      | some (oh, l) =>
        match expectChar (Char.ofNat 58) l with
        | none => none
        | some l =>
          match parseDigits 2 l with
          | none => none
          | some (om, l) => if oh < 24 && om < 60 then some l else none
    else none

/-- `datetime.fromisoformat` on the canonical grammar: date, then optional
separator + time-of-day + optional fraction + optional offset; the whole
input must be consumed. -/
def fromisoformatOk (l : List Char) : Bool :=
  match parseDigits 4 l with
  | none => false
  | some (y, l) =>
    match expectChar (Char.ofNat 45) l with
    | none => false
    | some l =>
      match parseDigits 2 l with
      | none => false
      | some (mo, l) =>
        match expectChar (Char.ofNat 45) l with
        | none => false
        | some l =>
          match parseDigits 2 l with
          | none => false
          | some (d, l) =>
            if !(1 ≤ y && 1 ≤ mo && mo ≤ 12 && 1 ≤ d && d ≤ daysInMonth y mo) then
              false
            else
              match l with
              | [] => true
              | _sep :: l =>
                match parseHMS l with
                | none => false
                | some (_, _, _, l) =>
                  match parseFraction l with
                  | none => false
                  | some l =>
                    match parseOffset l with
                    | none => false
                    | some l =>
                      match l with
                      | [] => true
                      | _ => false

/-- Python `ts.replace("Z", "+00:00")`: every `Z` character becomes the
six-character offset. -/
def replaceZ (l : List Char) : List Char :=
  l.flatMap (fun c => if c = 'Z' then "+00:00".data else [c])

/-- `parse_iso8601` (main.py lines 36-50) as called by `validate_event` on a
decoded JSON value: non-strings fail the `isinstance` test; a string ending
in `Z` has its `Z`s replaced before parsing. -/
def parse_iso8601 (v : JVal) : Bool :=
  match v with
  | .str s =>
    if s.data.getLast? = some 'Z' then fromisoformatOk (replaceZ s.data)
    else fromisoformatOk s.data
  | _ => false

/-- A UTC instant as carried by `datetime.now(timezone.utc)`. -/
structure Instant where
  year : Nat
  month : Nat
  day : Nat
  hour : Nat
  minute : Nat
  second : Nat
  usec : Nat

/-- The range constraints `datetime` enforces on its components. -/
def Instant.valid (t : Instant) : Prop :=
  1 ≤ t.year ∧ t.year ≤ 9999 ∧ 1 ≤ t.month ∧ t.month ≤ 12 ∧
  1 ≤ t.day ∧ t.day ≤ daysInMonth t.year t.month ∧
  t.hour < 24 ∧ t.minute < 60 ∧ t.second < 60 ∧ t.usec < 1000000

instance (t : Instant) : Decidable t.valid := by
  unfold Instant.valid; infer_instance

/-- Zero-padded fixed-width decimal rendering (`%04d` etc.), most
significant digit first. -/
def padDigits : Nat → Nat → List Char
  | 0, _ => []
  | k + 1, n => padDigits k (n / 10) ++ [Nat.digitChar (n % 10)]

/-- `utc_now_iso` (main.py lines 23-24):
`datetime.now(timezone.utc).isoformat().replace("+00:00", "Z")`.
`isoformat()` renders `YYYY-MM-DDTHH:MM:SS[.ffffff]+00:00` (the fraction is
omitted when the microsecond field is zero) and the single trailing
`+00:00` is replaced by `Z`. -/
def utc_now_iso (t : Instant) : String :=
  String.mk
    (padDigits 4 t.year ++ [Char.ofNat 45] ++ padDigits 2 t.month ++
      [Char.ofNat 45] ++ padDigits 2 t.day ++ [Char.ofNat 84] ++
      padDigits 2 t.hour ++ [Char.ofNat 58] ++ padDigits 2 t.minute ++
      [Char.ofNat 58] ++ padDigits 2 t.second ++
      (if t.usec = 0 then [] else Char.ofNat 46 :: padDigits 6 t.usec) ++
      ['Z'])

/-- `validate_event` (main.py lines 59-94): the ordered, short-circuiting
sequence of checks, each with its human-readable reason. -/
def validate_event (evt : EventDict) : ValidationResult :=
  match requiredFields.find? (fun k => !hasKey evt k) with
  | some k => ⟨false, some ("Missing required field: " ++ k)⟩
  | none =>
    if !parse_iso8601 (getV evt "ts") then
      ⟨false, some "Invalid ts: must be ISO 8601 string (recommended: ...Z)"⟩
    else if !jvalInStrSet (getV evt "event_type") ALLOWED_EVENT_TYPES then
      ⟨false, some ("Invalid event_type: must be one of [" ++ squote ++ "exec" ++
        squote ++ ", " ++ squote ++ "file_open" ++ squote ++ "]")⟩
    else
      match ["pid", "ppid", "uid"].find? (fun k => !is_int_like (getV evt k)) with
      | some k => ⟨false, some ("Invalid " ++ k ++ ": must be a non-negative integer")⟩
      | none =>
        match ["comm", "exe", "target"].find?
            (fun k => !is_non_empty_str (getV evt k)) with
        | some k => ⟨false, some ("Invalid " ++ k ++ ": must be a non-empty string")⟩
        | none =>
          if !jvalInStrSet (getV evt "source") ALLOWED_SOURCES then
            ⟨false, some ("Invalid source: must be one of [" ++ squote ++ "ebpf" ++
              squote ++ ", " ++ squote ++ "stdin" ++ squote ++ "]")⟩
          else if hasKey evt "tags" &&
              !(match getV evt "tags" with | .arr _ => true | _ => false) then
            ⟨false, some "Invalid tags: must be a list if present"⟩
          else if hasKey evt "meta" &&
              !(match getV evt "meta" with | .obj _ => true | _ => false) then
            ⟨false, some "Invalid meta: must be an object/dict if present"⟩
          else
            ⟨true, none⟩

/-- `normalize_event` (main.py lines 97-109), with the clock's output
passed in as `nowStr`.  `evt.get("ts")` yields Python `None` (`JVal.null`)
when the key is absent, which fails `is_non_empty_str` — the genuine
condition is therefore presence-and-non-blank. -/
def normalize_event (nowStr : String) (raw : EventDict) : EventDict :=
  let evt := raw
  let evt :=
    if !hasKey evt "ts" || !is_non_empty_str (getV evt "ts") then
      setKey evt "ts" (.str nowStr)
    else evt
  let evt :=
    if !hasKey evt "source" || !is_non_empty_str (getV evt "source") then
      setKey evt "source" (.str "stdin")
    else evt
  evt

/-! ## Process lineage (`src/collector/lineage.py`)

The process-info pseudo-filesystem is an external, independently mutating
resource; it is modelled as an injectable table `ProcFS` giving, per pid,
the directory-existence test and the contents each `_read_*` helper would
obtain (a failed read is the empty string / `none`, exactly the soft-fail
value the source produces; the byte caps and permissive decoding of
`_read_text` are absorbed into the modelled contents). -/

/-- `ProcNode` (lineage.py lines 9-16). -/
structure ProcNode where
  pid : Int
  ppid : Int
  uid : Int
  comm : String
  exe : String
  cmdline : String
  deriving DecidableEq, Repr, Inhabited

/-- One observable state of the process-info filesystem. -/
structure ProcFS where
  /-- `os.path.isdir(f"/proc/{pid}")`. -/
  isdir : Int → Bool
  /-- text obtained from `/proc/{pid}/stat` (empty on any read failure). -/
  statFile : Int → String
  /-- text obtained from `/proc/{pid}/status` (empty on any read failure). -/
  statusFile : Int → String
  /-- text obtained from `/proc/{pid}/comm` (empty on any read failure). -/
  commFile : Int → String
  /-- `os.readlink(f"/proc/{pid}/exe")`, `none` when it raises. -/
  exeLink : Int → Option String
  /-- text obtained from `/proc/{pid}/cmdline` (empty on any read failure). -/
  cmdlineFile : Int → String

/-- The `)` character. -/
def rparenChar : Char := Char.ofNat 41

/-- Python `s.rfind(c)` for a single character: the highest index holding
`c`, or `-1` when absent. -/
def rfindIdx : List Char → Char → Int
  | [], _ => -1
  | x :: xs, c =>
    let r := rfindIdx xs c
    if 0 ≤ r then r + 1 else if x = c then 0 else -1

/-- Accumulator for Python `str.split()`: whitespace-run splitting that
drops empty segments. -/
def splitWsGo : List Char → List Char → List (List Char)
  | [], acc => if acc.isEmpty then [] else [acc.reverse]
  | c :: l, acc =>
    if c.isWhitespace then
      if acc.isEmpty then splitWsGo l [] else acc.reverse :: splitWsGo l []
    else splitWsGo l (c :: acc)

/-- Python `str.split()` (no separator): split on whitespace runs, no empty
fields. -/
def splitWs (l : List Char) : List (List Char) := splitWsGo l []

/-- Python `str.isdigit()`, restricted to ASCII digits (the only digits the
claims exercise; exotic Unicode digits would make `int()` raise, landing in
the same `-1` outcome via the `except` clause). -/
def pyIsDigit (l : List Char) : Bool := !l.isEmpty && l.all Char.isDigit

/-- Python `int()` on a string of ASCII digits. -/
def digitsToNat (l : List Char) : Nat :=
  l.foldl (fun a c => a * 10 + (c.toNat - 48)) 0

/-- The field list `_read_ppid` extracts after locating the last `)` and
skipping two characters: `stat[stat.rfind(")") + 2:].split()`. -/
def statFields (l : List Char) : List (List Char) :=
  splitWs (l.drop (rfindIdx l rparenChar + 2).toNat)

/-- `_read_ppid` (lineage.py lines 59-78), as a function of the text read
from `/proc/{pid}/stat`: empty text gives `-1`; otherwise split the text
after the last `)` and take field 1 (`fields[0]` is the state letter) when
it is a string of digits, else `-1`. -/
def read_ppid (stat : String) : Int :=
  if stat.data.isEmpty then -1
  else
    match statFields stat.data with
    | _ :: f1 :: _ => if pyIsDigit f1 then Int.ofNat (digitsToNat f1) else -1
    | _ => -1

/-- The parse described by `_read_ppid` yields `n`: after splitting the
text following the last `)`, there is a field in position 1 (the expected
ppid position) made of digits whose value is `n` (necessarily a
non-negative integer). -/
def statParseYields (l : List Char) (n : Nat) : Prop :=
  ∃ f0 f1 rest, statFields l = f0 :: f1 :: rest ∧ pyIsDigit f1 = true ∧
    digitsToNat f1 = n

/-- `_read_uid` (lineage.py lines 48-56), as a function of the text read
from `/proc/{pid}/status`: the first `Uid:`-prefixed line whose second
whitespace-separated field is numeric yields that number; otherwise `-1`.
(`splitlines` is modelled as splitting on newline.) -/
def read_uid (status : String) : Int :=
  ((splitOnChar status.data (Char.ofNat 10)).findSome? (fun line =>
    if "Uid:".data.isPrefixOf line then
      match splitWs line with
      | _ :: p1 :: _ =>
        if pyIsDigit p1 then some (Int.ofNat (digitsToNat p1)) else none
      | _ => none
    else none)).getD (-1)

/-- `_read_cmdline` (lineage.py lines 28-34), as a function of the raw
NUL-separated text: split on NUL, drop empty segments, join with single
spaces. -/
def read_cmdline (raw : String) : String :=
  if raw.data.isEmpty then ""
  else
    String.mk (joinWithSpace
      ((splitOnChar raw.data (Char.ofNat 0)).filter (fun p => !p.isEmpty)))

/-- `get_proc_node` (lineage.py lines 81-100): absent for `pid <= 0` or a
missing `/proc/{pid}` directory; otherwise the snapshot record with the
negative ppid/uid sentinels normalized to `0`. -/
def get_proc_node (fs : ProcFS) (pid : Int) : Option ProcNode :=
  if pid ≤ 0 then none
  else if !fs.isdir pid then none
  else
    let ppid := read_ppid (fs.statFile pid)
    let uid := read_uid (fs.statusFile pid)
    let comm := pyStripStr (fs.commFile pid)
    let exe := (fs.exeLink pid).getD ""
    let cmdline := read_cmdline (fs.cmdlineFile pid)
    some { pid := pid, ppid := if 0 ≤ ppid then ppid else 0,
           uid := if 0 ≤ uid then uid else 0,
           comm := comm, exe := exe, cmdline := cmdline }

/-- The `while` loop of `build_lineage` (lineage.py lines 110-124): walk
parent links while the pid is positive, the depth bound is not reached and
the pid was not seen before; append each found record; stop early when the
record is absent or its parent link is `<= 0` or self-referential. -/
def lineageLoop (fs : ProcFS) (maxDepth : Nat) (cur : Int) (depth : Nat)
    (seen : List Int) (chain : List ProcNode) : List ProcNode :=
  if _h : 0 < cur ∧ depth < maxDepth ∧ cur ∉ seen then
    let seen' := cur :: seen
    match get_proc_node fs cur with
    | none => chain
    | some node =>
      let chain' := chain ++ [node]
      if node.ppid ≤ 0 ∨ node.ppid = node.pid then chain'
      else lineageLoop fs maxDepth node.ppid (depth + 1) seen' chain'
  else chain
termination_by maxDepth - depth
decreasing_by omega

/-- `build_lineage` (lineage.py lines 103-127): run the walk from `pid`
with empty accumulators, then reverse so the order is
root-ancestor → … → target. -/
def build_lineage (fs : ProcFS) (pid : Int) (maxDepth : Nat) : List ProcNode :=
  (lineageLoop fs maxDepth pid 0 [] []).reverse

/-! ## DOT rendering (`lineage_to_dot`, lineage.py lines 140-165) -/

/-- The `"` character. -/
def dquote : Char := Char.ofNat 34

/-- The `"` character as a string. -/
def dquoteS : String := String.mk [dquote]

/-- Python `s.replace(a, b)` for single characters. -/
def pyReplaceChar (s : String) (a b : Char) : String :=
  String.mk (s.data.map (fun c => if c = a then b else c))

/-- The `label` helper of `lineage_to_dot` (lineage.py lines 144-146):
`cmd = (cmdline or comm).replace(dquote, squote)` followed by the label
f-string with `cmd[:120]`.  Only `cmd` undergoes the quote replacement;
`comm` is interpolated as-is. -/
def dotLabel (n : ProcNode) : String :=
  let cmd := pyReplaceChar (if n.cmdline.data.isEmpty then n.comm else n.cmdline)
    dquote (Char.ofNat 39)
  toString n.pid ++ "\\n" ++ n.comm ++ "\\nuid=" ++ toString n.uid ++ "\\n" ++
    String.mk (cmd.data.take 120)

/-- One node statement: `  "{pid}" [label="{label}"];`. -/
def dotNodeLine (n : ProcNode) : String :=
  "  " ++ dquoteS ++ toString n.pid ++ dquoteS ++ " [label=" ++ dquoteS ++
    dotLabel n ++ dquoteS ++ "];"

/-- One edge statement: `  "{parent}" -> "{child}";`. -/
def dotEdgeLine (parent child : Int) : String :=
  "  " ++ dquoteS ++ toString parent ++ dquoteS ++ " -> " ++ dquoteS ++
    toString child ++ dquoteS ++ ";"

/-- The `lines` list built by `lineage_to_dot`: the three header lines, one
node line per record, then `for i in range(1, len(chain))` one edge line
from `chain[i-1]` to `chain[i]`, then the closing brace. -/
def lineage_to_dot_lines (chain : List ProcNode) : List String :=
  ["digraph lineage \x7b",
   "  rankdir=" ++ dquoteS ++ "LR" ++ dquoteS ++ ";",
   "  node [shape=" ++ dquoteS ++ "box" ++ dquoteS ++ "];"] ++
  chain.map dotNodeLine ++
  (List.range' 1 (chain.length - 1)).map
    (fun i => dotEdgeLine (chain.getD (i - 1) default).pid (chain.getD i default).pid) ++
  ["\x7d"]

/-- `lineage_to_dot` (lineage.py lines 140-165): `"\n".join(lines) + "\n"`. -/
def lineage_to_dot (chain : List ProcNode) : String :=
  String.intercalate "\n" (lineage_to_dot_lines chain) ++ "\n"

/-- Modelled from the spec (§4.3): the edge statements as the spec
describes them — one directed edge per adjacent pair of the chain,
parent → child, in chain order.  Compared against the index-loop form the
source uses. -/
def dotEdgesSpec (chain : List ProcNode) : List String :=
  (chain.zip chain.tail).map (fun p => dotEdgeLine p.1.pid p.2.pid)

/-- A concrete two-process table for witnesses: pid 2 is a child of pid 1,
and pid 1 is a root (ppid 0). -/
def fsDemo : ProcFS where
  isdir := fun p => (p == 1) || (p == 2)
  statFile := fun p =>
    if p == 2 then "2 (worker) S 1 1 2 0 -1 4194560"
    else if p == 1 then "1 (init) S 0 1 1 0 -1 4194560"
    else ""
  statusFile := fun _ => "Uid:\t0\t0\t0\t0"
  commFile := fun p => if p == 2 then "worker\n" else "init\n"
  exeLink := fun _ => none
  cmdlineFile := fun p => if p == 2 then "/bin/worker\x00-v\x00" else ""

/-- A concrete raw event carrying every required field except `ts` and
`source`, all of them valid. -/
def evtGood : EventDict :=
  [("event_type", JVal.str "exec"), ("pid", JVal.int 1), ("ppid", JVal.int 0),
   ("uid", JVal.int 0), ("comm", JVal.str "init"),
   ("exe", JVal.str "/sbin/init"), ("target", JVal.str "/sbin/init")]

/-- A concrete event with every required field present but a non-integer
`pid`. -/
def evtBadPid : EventDict :=
  [("ts", JVal.str "2026-01-01T00:00:00Z"), ("event_type", JVal.str "exec"),
   ("pid", JVal.str "oops"), ("ppid", JVal.int 0), ("uid", JVal.int 0),
   ("comm", JVal.str "init"), ("exe", JVal.str "/sbin/init"),
   ("target", JVal.str "/sbin/init"), ("source", JVal.str "stdin")]

/-- A concrete valid UTC instant. -/
def instDemo : Instant := ⟨2026, 10, 12, 8, 30, 5, 123456⟩

/-! ## Lemmas about the lineage walk -/

/-- One unfolding of the `build_lineage` loop. -/
theorem lineageLoop_eq (fs : ProcFS) (maxD : Nat) (cur : Int) (depth : Nat)
    (seen : List Int) (chain : List ProcNode) :
    lineageLoop fs maxD cur depth seen chain =
      if 0 < cur ∧ depth < maxD ∧ cur ∉ seen then
        match get_proc_node fs cur with
        | none => chain
        | some node =>
          if node.ppid ≤ 0 ∨ node.ppid = node.pid then chain ++ [node]
          else lineageLoop fs maxD node.ppid (depth + 1) (cur :: seen) (chain ++ [node])
      else chain := by
  rw [lineageLoop]
  split <;> rfl

/-- A record returned by `get_proc_node` carries the pid it was asked
about. -/
theorem get_proc_node_pid {fs : ProcFS} {p : Int} {n : ProcNode}
    (h : get_proc_node fs p = some n) : n.pid = p := by
  simp only [get_proc_node] at h
  split at h
  · exact absurd h (by simp)
  · split at h
    · exact absurd h (by simp)
    · simp only [Option.some.injEq] at h
      subst h
      rfl

/-- The loop only ever appends: running it from accumulator `chain` is
running it from the empty accumulator and prefixing `chain`. -/
theorem lineageLoop_acc (fs : ProcFS) (maxD : Nat) :
    ∀ fuel (cur : Int) (depth : Nat) (seen : List Int) (chain : List ProcNode),
      maxD - depth ≤ fuel →
      lineageLoop fs maxD cur depth seen chain =
        chain ++ lineageLoop fs maxD cur depth seen [] := by
  intro fuel
  induction fuel with
  | zero =>
    intro cur depth seen chain hf
    rw [lineageLoop_eq, lineageLoop_eq]
    have hneg : ¬(0 < cur ∧ depth < maxD ∧ cur ∉ seen) := by
      rintro ⟨_, h2, _⟩; omega
    rw [if_neg hneg, if_neg hneg]
    simp
  | succ f ih =>
    intro cur depth seen chain hf
    rw [lineageLoop_eq, lineageLoop_eq]
    by_cases hc : 0 < cur ∧ depth < maxD ∧ cur ∉ seen
    · rw [if_pos hc, if_pos hc]
      cases hget : get_proc_node fs cur with
      | none => simp
      | some node =>
        simp only
        by_cases hb : node.ppid ≤ 0 ∨ node.ppid = node.pid
        · rw [if_pos hb, if_pos hb]
          simp
        · rw [if_neg hb, if_neg hb]
          rw [ih node.ppid (depth + 1) (cur :: seen) (chain ++ [node]) (by omega),
            ih node.ppid (depth + 1) (cur :: seen) ([] ++ [node]) (by omega)]
          simp
    · rw [if_neg hc, if_neg hc]
      simp

/-- The loop only ever appends (stated without fuel). -/
theorem lineageLoop_append (fs : ProcFS) (maxD : Nat) (cur : Int) (depth : Nat)
    (seen : List Int) (chain : List ProcNode) :
    lineageLoop fs maxD cur depth seen chain =
      chain ++ lineageLoop fs maxD cur depth seen [] :=
  lineageLoop_acc fs maxD (maxD - depth) cur depth seen chain le_rfl

/-- Loop invariant: in the accumulated (target-first) list every record's
`ppid` is the next record's `pid`, and the first record (when present)
carries the pid the walk started from. -/
theorem lineageLoop_chain (fs : ProcFS) (maxD : Nat) :
    ∀ fuel (cur : Int) (depth : Nat) (seen : List Int), maxD - depth ≤ fuel →
      List.Chain' (fun a b : ProcNode => a.ppid = b.pid)
        (lineageLoop fs maxD cur depth seen []) ∧
      ∀ x ∈ (lineageLoop fs maxD cur depth seen []).head?, x.pid = cur := by
  intro fuel
  induction fuel with
  | zero =>
    intro cur depth seen hf
    rw [lineageLoop_eq]
    have hneg : ¬(0 < cur ∧ depth < maxD ∧ cur ∉ seen) := by
      rintro ⟨_, h2, _⟩; omega
    rw [if_neg hneg]
    simp
  | succ f ih =>
    intro cur depth seen hf
    rw [lineageLoop_eq]
    by_cases hc : 0 < cur ∧ depth < maxD ∧ cur ∉ seen
    · rw [if_pos hc]
      cases hget : get_proc_node fs cur with
      | none => simp
      | some node =>
        simp only [List.nil_append]
        have hpid : node.pid = cur := get_proc_node_pid hget
        by_cases hb : node.ppid ≤ 0 ∨ node.ppid = node.pid
        · rw [if_pos hb]
          simp [hpid]
        · rw [if_neg hb]
          rw [lineageLoop_append fs maxD node.ppid (depth + 1) (cur :: seen) [node]]
          obtain ⟨hch, hhd⟩ := ih node.ppid (depth + 1) (cur :: seen) (by omega)
          constructor
          · rw [List.singleton_append]
            exact List.chain'_cons'.mpr
              ⟨fun y hy => (hhd y hy).symm, hch⟩
          · intro x hx
            rw [List.singleton_append] at hx
            simp only [List.head?_cons, Option.mem_def, Option.some.injEq] at hx
            rw [← hx, hpid]
    · rw [if_neg hc]
      simp

/-- Loop invariant: the pids of the accumulated records are pairwise
distinct and disjoint from the `seen` set. -/
theorem lineageLoop_nodup (fs : ProcFS) (maxD : Nat) :
    ∀ fuel (cur : Int) (depth : Nat) (seen : List Int), maxD - depth ≤ fuel →
      ((lineageLoop fs maxD cur depth seen []).map (fun n => n.pid)).Nodup ∧
      ∀ x ∈ (lineageLoop fs maxD cur depth seen []).map (fun n => n.pid),
        x ∉ seen := by
  intro fuel
  induction fuel with
  | zero =>
    intro cur depth seen hf
    rw [lineageLoop_eq]
    have hneg : ¬(0 < cur ∧ depth < maxD ∧ cur ∉ seen) := by
      rintro ⟨_, h2, _⟩; omega
    rw [if_neg hneg]
    simp
  | succ f ih =>
    intro cur depth seen hf
    rw [lineageLoop_eq]
    by_cases hc : 0 < cur ∧ depth < maxD ∧ cur ∉ seen
    · rw [if_pos hc]
      cases hget : get_proc_node fs cur with
      | none => simp
      | some node =>
        simp only [List.nil_append]
        have hpid : node.pid = cur := get_proc_node_pid hget
        by_cases hb : node.ppid ≤ 0 ∨ node.ppid = node.pid
        · rw [if_pos hb]
          simp [hpid, hc.2.2]
        · rw [if_neg hb]
          rw [lineageLoop_append fs maxD node.ppid (depth + 1) (cur :: seen) [node]]
          obtain ⟨hnd, hdisj⟩ := ih node.ppid (depth + 1) (cur :: seen) (by omega)
          rw [List.singleton_append]
          simp only [List.map_cons, List.nodup_cons, List.mem_cons, hpid]
          refine ⟨⟨fun hmem => ?_, hnd⟩, ?_⟩
          · exact absurd (List.mem_cons_self cur seen) (hdisj cur hmem)
          · rintro x (rfl | hx)
            · exact hc.2.2
            · intro hxs
              exact hdisj x hx (List.mem_cons_of_mem cur hxs)
    · rw [if_neg hc]
      simp

/-- The loop adds at most `maxD - depth` records to the accumulator. -/
theorem lineageLoop_length (fs : ProcFS) (maxD : Nat) :
    ∀ fuel (cur : Int) (depth : Nat) (seen : List Int) (chain : List ProcNode),
      maxD - depth ≤ fuel →
      (lineageLoop fs maxD cur depth seen chain).length ≤
        chain.length + (maxD - depth) := by
  intro fuel
  induction fuel with
  | zero =>
    intro cur depth seen chain hf
    rw [lineageLoop_eq]
    have hneg : ¬(0 < cur ∧ depth < maxD ∧ cur ∉ seen) := by
      rintro ⟨_, h2, _⟩; omega
    rw [if_neg hneg]
    omega
  | succ f ih =>
    intro cur depth seen chain hf
    rw [lineageLoop_eq]
    by_cases hc : 0 < cur ∧ depth < maxD ∧ cur ∉ seen
    · rw [if_pos hc]
      cases hget : get_proc_node fs cur with
      | none => simp
      | some node =>
        simp only
        by_cases hb : node.ppid ≤ 0 ∨ node.ppid = node.pid
        · rw [if_pos hb]
          simp only [List.length_append, List.length_cons, List.length_nil]
          omega
        · rw [if_neg hb]
          have := ih node.ppid (depth + 1) (cur :: seen) (chain ++ [node]) (by omega)
          simp only [List.length_append, List.length_cons, List.length_nil] at this
          omega
    · rw [if_neg hc]
      omega

/-- C1: in every chain returned by `build_lineage`, each adjacent pair is a
real parent link — `chain[i].pid = chain[i+1].ppid` for every index `i`
with a successor; no construction-time break ever leaves a mismatched
adjacent pair, it merely ends the chain. -/
theorem build_lineage_adjacent_link (fs : ProcFS) (pid : Int) (maxDepth : Nat)
    (i : Nat) (h : i + 1 < (build_lineage fs pid maxDepth).length) :
    ((build_lineage fs pid maxDepth).getD i default).pid =
      ((build_lineage fs pid maxDepth).getD (i + 1) default).ppid := by
  have hch := (lineageLoop_chain fs maxDepth (maxDepth - 0) pid 0 [] le_rfl).1
  have hrev : List.Chain' (fun a b : ProcNode => a.pid = b.ppid)
      (build_lineage fs pid maxDepth) := by
    unfold build_lineage
    rw [List.chain'_reverse]
    exact hch.imp (fun a b hab => hab.symm)
  have hget := List.chain'_iff_get.mp hrev i (by omega)
  simp only [List.get_eq_getElem] at hget
  rw [List.getD_eq_getElem _ _ (show i < _ by omega), List.getD_eq_getElem _ _ h]
  exact hget

/-- The concrete chain produced on the two-process table `fsDemo`. -/
theorem build_lineage_fsDemo_eq :
    build_lineage fsDemo 2 10 =
      [⟨1, 0, 0, "init", "", ""⟩, ⟨2, 1, 0, "worker", "", "/bin/worker -v"⟩] := by
  rw [build_lineage, lineageLoop_eq]
  rw [if_pos (show (0 : Int) < 2 ∧ 0 < 10 ∧ (2 : Int) ∉ ([] : List Int) by decide)]
  rw [show get_proc_node fsDemo 2 =
    some (⟨2, 1, 0, "worker", "", "/bin/worker -v"⟩ : ProcNode) by decide]
  simp only [List.nil_append]
  rw [if_neg (show ¬((⟨2, 1, 0, "worker", "", "/bin/worker -v"⟩ : ProcNode).ppid ≤ 0 ∨
    (⟨2, 1, 0, "worker", "", "/bin/worker -v"⟩ : ProcNode).ppid =
      (⟨2, 1, 0, "worker", "", "/bin/worker -v"⟩ : ProcNode).pid) by decide)]
  rw [lineageLoop_eq]
  rw [if_pos (show (0 : Int) < 1 ∧ 0 + 1 < 10 ∧ (1 : Int) ∉ ([2] : List Int) by decide)]
  rw [show get_proc_node fsDemo 1 =
    some (⟨1, 0, 0, "init", "", ""⟩ : ProcNode) by decide]
  simp only []
  rw [if_pos (show (⟨1, 0, 0, "init", "", ""⟩ : ProcNode).ppid ≤ 0 ∨
    (⟨1, 0, 0, "init", "", ""⟩ : ProcNode).ppid =
      (⟨1, 0, 0, "init", "", ""⟩ : ProcNode).pid from Or.inl (by decide))]
  rfl

/-- Witness for C1 on the concrete two-process table: the chain for pid 2
is `[init, worker]` and the single adjacent pair links up. -/
theorem build_lineage_adjacent_link_witness :
    0 + 1 < (build_lineage fsDemo 2 10).length ∧
    ((build_lineage fsDemo 2 10).getD 0 default).pid =
      ((build_lineage fsDemo 2 10).getD 1 default).ppid :=
  have hlen : 0 + 1 < (build_lineage fsDemo 2 10).length := by
    rw [build_lineage_fsDemo_eq]; decide
  ⟨hlen, build_lineage_adjacent_link fsDemo 2 10 0 hlen⟩

/-- C2: a chain returned by `build_lineage` never exceeds `max_depth`
records. -/
theorem build_lineage_length_le (fs : ProcFS) (pid : Int) (maxDepth : Nat) :
    (build_lineage fs pid maxDepth).length ≤ maxDepth := by
  unfold build_lineage
  rw [List.length_reverse]
  have := lineageLoop_length fs maxDepth (maxDepth - 0) pid 0 [] [] le_rfl
  simpa using this

/-- C9: the pids in a chain returned by `build_lineage` are pairwise
distinct — the `seen` set guards against cycles. -/
theorem build_lineage_pids_nodup (fs : ProcFS) (pid : Int) (maxDepth : Nat) :
    ((build_lineage fs pid maxDepth).map (fun n => n.pid)).Nodup := by
  unfold build_lineage
  rw [List.map_reverse, List.nodup_reverse]
  exact (lineageLoop_nodup fs maxDepth (maxDepth - 0) pid 0 [] le_rfl).1

/-- C10: for a positive starting pid whose process-info entry exists and a
positive depth bound, the chain is non-empty and its last record carries
the starting pid. -/
theorem build_lineage_last_pid (fs : ProcFS) (pid : Int) (maxDepth : Nat)
    (h1 : 0 < pid) (h2 : fs.isdir pid = true) (h3 : 0 < maxDepth) :
    build_lineage fs pid maxDepth ≠ [] ∧
    ((build_lineage fs pid maxDepth).getLast?.map (fun n => n.pid)) = some pid := by
  obtain ⟨node, hget⟩ : ∃ node, get_proc_node fs pid = some node := by
    simp only [get_proc_node]
    rw [if_neg (by omega), if_neg (by simp [h2])]
    exact ⟨_, rfl⟩
  have hpid : node.pid = pid := get_proc_node_pid hget
  obtain ⟨rest, hl⟩ : ∃ rest, lineageLoop fs maxDepth pid 0 [] [] = node :: rest := by
    rw [lineageLoop_eq, if_pos ⟨h1, h3, List.not_mem_nil pid⟩]
    simp only [hget, List.nil_append]
    by_cases hb : node.ppid ≤ 0 ∨ node.ppid = node.pid
    · rw [if_pos hb]; exact ⟨[], rfl⟩
    · rw [if_neg hb]
      rw [lineageLoop_append fs maxDepth node.ppid (0 + 1) (pid :: []) [node]]
      exact ⟨_, List.singleton_append⟩
  unfold build_lineage
  rw [hl]
  refine ⟨by simp, ?_⟩
  rw [List.getLast?_reverse]
  simp [hpid]

/-- Witness for C10: on the concrete table, the chain for pid 2 is
non-empty and ends at pid 2. -/
theorem build_lineage_last_pid_witness :
    build_lineage fsDemo 2 10 ≠ [] ∧
    ((build_lineage fsDemo 2 10).getLast?.map (fun n => n.pid)) = some 2 :=
  build_lineage_last_pid fsDemo 2 10 (by decide) (by decide) (by decide)

/-! ## Lemmas about the event dictionary and the validator -/

/-- Lookup on a cons cell. -/
theorem getEntry_cons (k' : String) (v' : JVal) (t : EventDict) (k : String) :
    getEntry ((k', v') :: t) k = if k' = k then some v' else getEntry t k := by
  by_cases h : k' = k <;> simp [getEntry, List.find?_cons, h]

/-- Assignment stores the value. -/
theorem getEntry_setKey_self (l : EventDict) (k : String) (v : JVal) :
    getEntry (setKey l k v) k = some v := by
  induction l with
  | nil => simp [setKey, getEntry_cons, getEntry]
  | cons p t ih =>
    obtain ⟨k', v'⟩ := p
    by_cases h : k' = k
    · subst h
      simp [setKey, getEntry_cons]
    · simp only [setKey, if_neg h]
      rw [getEntry_cons, if_neg h]
      exact ih

/-- Assignment at one key leaves every other key's binding unchanged. -/
theorem getEntry_setKey_ne (l : EventDict) (k k' : String) (v : JVal)
    (h : k' ≠ k) : getEntry (setKey l k v) k' = getEntry l k' := by
  induction l with
  | nil =>
    show getEntry [(k, v)] k' = getEntry [] k'
    rw [getEntry_cons, if_neg (fun hh => h hh.symm)]
  | cons p t ih =>
    obtain ⟨a, b⟩ := p
    by_cases ha : a = k
    · subst ha
      rw [show setKey ((a, b) :: t) a v = (a, v) :: t from by simp [setKey]]
      rw [getEntry_cons, getEntry_cons, if_neg (fun hh => h hh.symm),
        if_neg (fun hh => h hh.symm)]
    · rw [show setKey ((a, b) :: t) k v = (a, b) :: setKey t k v from by
        simp [setKey, ha]]
      rw [getEntry_cons, getEntry_cons]
      by_cases hk' : a = k'
      · simp [hk']
      · rw [if_neg hk', if_neg hk']
        exact ih

/-- Assignment never removes a key. -/
theorem hasKey_setKey_of_hasKey (l : EventDict) (k k' : String) (v : JVal)
    (h : hasKey l k' = true) : hasKey (setKey l k v) k' = true := by
  by_cases hk : k' = k
  · subst hk
    simp [hasKey, getEntry_setKey_self]
  · rw [hasKey, getEntry_setKey_ne l k k' v hk]
    exact h

/-- C6: `normalize_event` is a frame: every key other than `ts` and
`source` keeps its binding; `ts` and `source` themselves are kept whenever
present and non-blank; no key is removed. -/
theorem normalize_event_frame (nowStr : String) (raw : EventDict) :
    (∀ k, k ≠ "ts" → k ≠ "source" →
      getEntry (normalize_event nowStr raw) k = getEntry raw k) ∧
    (hasKey raw "ts" = true → is_non_empty_str (getV raw "ts") = true →
      getEntry (normalize_event nowStr raw) "ts" = getEntry raw "ts") ∧
    (hasKey raw "source" = true → is_non_empty_str (getV raw "source") = true →
      getEntry (normalize_event nowStr raw) "source" = getEntry raw "source") ∧
    (∀ k, hasKey raw k = true → hasKey (normalize_event nowStr raw) k = true) := by
  set e1 := if !hasKey raw "ts" || !is_non_empty_str (getV raw "ts") then
    setKey raw "ts" (.str nowStr) else raw with he1
  have step1_ne : ∀ k, k ≠ "ts" → getEntry e1 k = getEntry raw k := by
    intro k hk
    rw [he1]
    split
    · exact getEntry_setKey_ne raw "ts" k _ hk
    · rfl
  have step1_has : ∀ k, hasKey raw k = true → hasKey e1 k = true := by
    intro k hk
    rw [he1]
    split
    · exact hasKey_setKey_of_hasKey raw "ts" k _ hk
    · exact hk
  set e2 := if !hasKey e1 "source" || !is_non_empty_str (getV e1 "source") then
    setKey e1 "source" (.str "stdin") else e1 with he2
  have step2_ne : ∀ k, k ≠ "source" → getEntry e2 k = getEntry e1 k := by
    intro k hk
    rw [he2]
    split
    · exact getEntry_setKey_ne e1 "source" k _ hk
    · rfl
  have step2_has : ∀ k, hasKey e1 k = true → hasKey e2 k = true := by
    intro k hk
    rw [he2]
    split
    · exact hasKey_setKey_of_hasKey e1 "source" k _ hk
    · exact hk
  have hnorm : normalize_event nowStr raw = e2 := rfl
  rw [hnorm]
  refine ⟨?_, ?_, ?_, ?_⟩
  · intro k hts hsrc
    rw [step2_ne k hsrc, step1_ne k hts]
  · intro hhas hne
    have hc : (!hasKey raw "ts" || !is_non_empty_str (getV raw "ts")) = false := by
      rw [hhas, hne]; rfl
    have he1' : e1 = raw := by rw [he1, hc]; rfl
    rw [step2_ne "ts" (by decide), he1']
  · intro hhas hne
    have h1 : getEntry e1 "source" = getEntry raw "source" :=
      step1_ne "source" (by decide)
    have hhas1 : hasKey e1 "source" = true := by
      rw [hasKey, h1]; exact hhas
    have hne1 : is_non_empty_str (getV e1 "source") = true := by
      rw [getV, h1]; exact hne
    have hc : (!hasKey e1 "source" || !is_non_empty_str (getV e1 "source")) = false := by
      rw [hhas1, hne1]; rfl
    have he2' : e2 = e1 := by rw [he2, hc]; rfl
    rw [he2', h1]
  · intro k hk
    exact step2_has k (step1_has k hk)

/-- Witness for C6: on a concrete event with a non-blank `ts`, the `pid`
binding and the `ts` binding survive normalization unchanged. -/
theorem normalize_event_frame_witness :
    getEntry (normalize_event "1999-01-01T00:00:00Z" evtBadPid) "pid" =
      getEntry evtBadPid "pid" ∧
    getEntry (normalize_event "1999-01-01T00:00:00Z" evtBadPid) "ts" =
      getEntry evtBadPid "ts" :=
  ⟨(normalize_event_frame "1999-01-01T00:00:00Z" evtBadPid).1 "pid"
      (by decide) (by decide),
   (normalize_event_frame "1999-01-01T00:00:00Z" evtBadPid).2.1
      (by decide) (by decide)⟩

/-- C7: the decoded line `{"event_type":"file_open"}`, normalized (which
fills `ts` and `source`) and then validated, is rejected citing `pid` —
the first required field, in declared order, still missing after
normalization. -/
theorem pipeline_missing_pid (nowStr : String) :
    validate_event (normalize_event nowStr [("event_type", JVal.str "file_open")]) =
      ⟨false, some "Missing required field: pid"⟩ := by
  rfl

/-- C8: on an event with every required field present, a `pid` value that
fails `is_int_like` (a negative integer, or not an integer at all) makes
`validate_event` reject — with the reason naming `pid` once the earlier
`ts` and `event_type` checks pass — and the pid/ppid/uid check lets an
event through only when all three values are non-negative integers (with
Python's `bool` counting as an integer). -/
theorem validate_pid_check (evt : EventDict)
    (hreq : ∀ k ∈ requiredFields, hasKey evt k = true) :
    (is_int_like (getV evt "pid") = false →
      (validate_event evt).ok = false ∧
      (parse_iso8601 (getV evt "ts") = true →
        jvalInStrSet (getV evt "event_type") ALLOWED_EVENT_TYPES = true →
        (validate_event evt).error =
          some "Invalid pid: must be a non-negative integer")) ∧
    ((validate_event evt).ok = true →
      is_int_like (getV evt "pid") = true ∧
      is_int_like (getV evt "ppid") = true ∧
      is_int_like (getV evt "uid") = true) := by
  have hfind : requiredFields.find? (fun k => !hasKey evt k) = none :=
    List.find?_eq_none.mpr (fun k hk => by rw [hreq k hk]; simp)
  constructor
  · intro hbad
    cases hts : parse_iso8601 (getV evt "ts") with
    | false =>
      have hv : validate_event evt =
          ⟨false, some "Invalid ts: must be ISO 8601 string (recommended: ...Z)"⟩ := by
        simp [validate_event, hfind, hts]
      rw [hv]
      exact ⟨rfl, fun hc _ => absurd hc (by simp [hts])⟩
    | true =>
      cases het : jvalInStrSet (getV evt "event_type") ALLOWED_EVENT_TYPES with
      | false =>
        have hv : (validate_event evt).ok = false := by
          simp [validate_event, hfind, hts, het]
        exact ⟨hv, fun _ hc => absurd hc (by simp [het])⟩
      | true =>
        have hfind2 : (["pid", "ppid", "uid"].find?
            (fun k => !is_int_like (getV evt k))) = some "pid" := by
          simp [List.find?, hbad]
        have hv : validate_event evt =
            ⟨false, some ("Invalid " ++ "pid" ++ ": must be a non-negative integer")⟩ := by
          simp [validate_event, hfind, hts, het, hfind2]
        rw [hv]
        exact ⟨rfl, fun _ _ => rfl⟩
  · intro hok
    cases hts : parse_iso8601 (getV evt "ts") with
    | false => simp [validate_event, hfind, hts] at hok
    | true =>
      cases het : jvalInStrSet (getV evt "event_type") ALLOWED_EVENT_TYPES with
      | false => simp [validate_event, hfind, hts, het] at hok
      | true =>
        cases hfind2 : (["pid", "ppid", "uid"].find?
            (fun k => !is_int_like (getV evt k))) with
        | some k => simp [validate_event, hfind, hts, het, hfind2] at hok
        | none =>
          have hall := List.find?_eq_none.mp hfind2
          exact ⟨by simpa using hall "pid" (by simp),
            by simpa using hall "ppid" (by simp),
            by simpa using hall "uid" (by simp)⟩

/-- Witness for C8: the concrete event whose `pid` is the string `oops` is
rejected with the pid reason. -/
theorem validate_pid_check_witness :
    (validate_event evtBadPid).ok = false ∧
    (validate_event evtBadPid).error =
      some "Invalid pid: must be a non-negative integer" :=
  have h := (validate_pid_check evtBadPid (by decide)).1 (by decide)
  ⟨h.1, h.2 (by decide) (by decide)⟩

/-! ## Lemmas about the DOT rendering -/

/-- Decimal digit characters are not the double quote. -/
theorem digitChar_ne_dquote (m : Nat) (h : m < 10) : Nat.digitChar m ≠ dquote := by
  interval_cases m <;> decide

/-- `Nat.toDigitsCore` in base 10 never emits a double quote. -/
theorem toDigitsCore_ne_dquote : ∀ (fuel n : Nat) (acc : List Char),
    (∀ c ∈ acc, c ≠ dquote) →
    ∀ c ∈ Nat.toDigitsCore 10 fuel n acc, c ≠ dquote := by
  intro fuel
  induction fuel with
  | zero =>
    intro n acc hacc
    simpa [Nat.toDigitsCore] using hacc
  | succ f ih =>
    intro n acc hacc
    have hd : Nat.digitChar (n % 10) ≠ dquote :=
      digitChar_ne_dquote _ (Nat.mod_lt _ (by norm_num))
    have hcons : ∀ c ∈ Nat.digitChar (n % 10) :: acc, c ≠ dquote := by
      intro c hc
      rcases List.mem_cons.mp hc with rfl | hc
      · exact hd
      · exact hacc c hc
    simp only [Nat.toDigitsCore]
    by_cases h0 : n / 10 = 0
    · simpa [h0] using hcons
    · simpa [h0] using ih (n / 10) (Nat.digitChar (n % 10) :: acc) hcons

/-- `Nat.repr` consists of digit characters only — never a double quote. -/
theorem natRepr_ne_dquote (n : Nat) : ∀ c ∈ (Nat.repr n).data, c ≠ dquote := by
  intro c hc
  have hdata : (Nat.repr n).data = Nat.toDigits 10 n := rfl
  rw [hdata, Nat.toDigits] at hc
  exact toDigitsCore_ne_dquote (n + 1) n [] (by simp) c hc

/-- The decimal rendering of an `Int` never contains a double quote. -/
theorem toString_int_ne_dquote (i : Int) : ∀ c ∈ (toString i).data, c ≠ dquote := by
  cases i with
  | ofNat m =>
    intro c hc
    exact natRepr_ne_dquote m c hc
  | negSucc m =>
    intro c hc
    have hdata : (toString (Int.negSucc m)).data =
        Char.ofNat 45 :: (Nat.repr (m + 1)).data := rfl
    rw [hdata] at hc
    rcases List.mem_cons.mp hc with rfl | hc
    · decide
    · exact natRepr_ne_dquote (m + 1) c hc

/-- The quote-replaced command text never contains a double quote,
whatever the input was. -/
theorem pyReplaceChar_dquote (s : String) :
    dquote ∉ (pyReplaceChar s dquote (Char.ofNat 39)).data := by
  intro hmem
  unfold pyReplaceChar at hmem
  obtain ⟨c, _, hfc⟩ := List.mem_map.mp hmem
  by_cases hc : c = dquote
  · rw [if_pos hc] at hfc
    exact absurd hfc (by decide)
  · rw [if_neg hc] at hfc
    exact hc hfc

/-- A record whose `comm` is free of double quotes gets a label free of
double quotes (the pid, uid and command portions can never contain one). -/
theorem dotLabel_ne_dquote (n : ProcNode) (h : dquote ∉ n.comm.data) :
    dquote ∉ (dotLabel n).data := by
  intro hmem
  unfold dotLabel at hmem
  have hpid : dquote ∉ (toString n.pid).data :=
    fun hm => toString_int_ne_dquote n.pid dquote hm rfl
  have huid : dquote ∉ (toString n.uid).data :=
    fun hm => toString_int_ne_dquote n.uid dquote hm rfl
  have htake : dquote ∉ List.take 120
      (pyReplaceChar (if n.cmdline.data.isEmpty = true then n.comm else n.cmdline)
        dquote (Char.ofNat 39)).data :=
    fun hm => pyReplaceChar_dquote _ (List.take_subset 120 _ hm)
  have hnl : dquote ∉ ("\\n" : String).data := by decide
  have hnluid : dquote ∉ ("\\nuid=" : String).data := by decide
  simp only [String.data_append, List.mem_append] at hmem
  tauto

/-- Indexed consecutive pairs over `List.range` agree with `zip`-ped
consecutive pairs. -/
theorem range_pairs_eq_zip {α β : Type} (d : α) (f : α → α → β) :
    ∀ l : List α,
      (List.range (l.length - 1)).map
        (fun j => f (l.getD j d) (l.getD (j + 1) d)) =
      (l.zip l.tail).map (fun p => f p.1 p.2)
  | [] => rfl
  | [_] => rfl
  | a :: b :: t => by
    have IH := range_pairs_eq_zip d f (b :: t)
    rw [show (b :: t).length - 1 = t.length from rfl] at IH
    have hcomp : ((fun j => f ((a :: b :: t).getD j d)
        ((a :: b :: t).getD (j + 1) d)) ∘ Nat.succ) =
        (fun j => f ((b :: t).getD j d) ((b :: t).getD (j + 1) d)) := by
      funext j
      rfl
    rw [show (a :: b :: t).length - 1 = t.length + 1 from rfl,
      List.range_succ_eq_map, List.map_cons, List.map_map, hcomp, IH]
    rfl

/-- The index-loop edge list of `lineage_to_dot` is exactly one edge per
adjacent pair, in chain order. -/
theorem dotEdges_range'_eq_spec (chain : List ProcNode) :
    (List.range' 1 (chain.length - 1)).map
      (fun i => dotEdgeLine (chain.getD (i - 1) default).pid
        (chain.getD i default).pid) =
    dotEdgesSpec chain := by
  have hcomp : ((fun i => dotEdgeLine (chain.getD (i - 1) default).pid
      (chain.getD i default).pid) ∘ (fun j => 1 + j)) =
      (fun j => dotEdgeLine (chain.getD j default).pid
        (chain.getD (j + 1) default).pid) := by
    funext j
    rw [Function.comp_apply, Nat.add_comm 1 j, Nat.add_sub_cancel]
  unfold dotEdgesSpec
  rw [List.range'_eq_map_range, List.map_map, hcomp]
  have hz := range_pairs_eq_zip (default : ProcNode)
    (fun a b => dotEdgeLine a.pid b.pid) chain
  exact hz

/-- C4 (counterexample): the claim that no label text contains a double
quote fails — only the command portion is quote-escaped.  A record whose
`comm` contains a double quote gets its node statement emitted with that
quote inside the label, breaking the claimed property. -/
theorem lineage_to_dot_label_counterexample :
    dotNodeLine ⟨7, 1, 0, String.mk ['s', 'h', dquote], "", "x"⟩ ∈
      lineage_to_dot_lines [⟨7, 1, 0, String.mk ['s', 'h', dquote], "", "x"⟩] ∧
    dquote ∈ (dotLabel ⟨7, 1, 0, String.mk ['s', 'h', dquote], "", "x"⟩).data := by
  constructor
  · decide
  · decide

/-- C4 (amended): `lineage_to_dot` emits the three header lines, then
exactly one node statement per record in chain order (label = pid, comm,
uid and the first 120 characters of the quote-escaped cmdline-or-comm),
then exactly one directed edge statement per adjacent pair, parent before
child, in chain order, then the footer; and the labels are free of double
quotes provided each record's `comm` is (the pid, uid and command portions
can never contribute one — the command text is quote-escaped, but `comm`
is interpolated unescaped). -/
theorem lineage_to_dot_structure (chain : List ProcNode)
    (hcomm : ∀ n ∈ chain, dquote ∉ n.comm.data) :
    lineage_to_dot_lines chain =
      ["digraph lineage \x7b",
       "  rankdir=" ++ dquoteS ++ "LR" ++ dquoteS ++ ";",
       "  node [shape=" ++ dquoteS ++ "box" ++ dquoteS ++ "];"] ++
      chain.map dotNodeLine ++ dotEdgesSpec chain ++ ["\x7d"] ∧
    ∀ n ∈ chain, dquote ∉ (dotLabel n).data := by
  constructor
  · unfold lineage_to_dot_lines
    rw [dotEdges_range'_eq_spec]
  · intro n hn
    exact dotLabel_ne_dquote n (hcomm n hn)

/-- Witness for the amended C4 on a concrete two-record chain. -/
theorem lineage_to_dot_structure_witness :
    lineage_to_dot_lines
        [⟨1, 0, 0, "init", "", ""⟩, ⟨2, 1, 0, "worker", "", "x"⟩] =
      ["digraph lineage \x7b",
       "  rankdir=" ++ dquoteS ++ "LR" ++ dquoteS ++ ";",
       "  node [shape=" ++ dquoteS ++ "box" ++ dquoteS ++ "];"] ++
      ([⟨1, 0, 0, "init", "", ""⟩, ⟨2, 1, 0, "worker", "", "x"⟩] :
        List ProcNode).map dotNodeLine ++
      dotEdgesSpec [⟨1, 0, 0, "init", "", ""⟩, ⟨2, 1, 0, "worker", "", "x"⟩] ++
      ["\x7d"] ∧
    ∀ n ∈ ([⟨1, 0, 0, "init", "", ""⟩, ⟨2, 1, 0, "worker", "", "x"⟩] :
        List ProcNode), dquote ∉ (dotLabel n).data :=
  lineage_to_dot_structure _ (by decide)

/-! ## Lemmas about the `_read_ppid` parser -/

/-- `rfind` misses: `-1` when the character does not occur. -/
theorem rfindIdx_of_not_mem : ∀ (l : List Char) (c : Char), c ∉ l →
    rfindIdx l c = -1 := by
  intro l c
  induction l with
  | nil => intro _; rfl
  | cons x xs ih =>
    intro h
    have hx : x ≠ c := fun hh => h (hh ▸ List.mem_cons_self x xs)
    have hxs : c ∉ xs := fun hh => h (List.mem_cons_of_mem x hh)
    simp only [rfindIdx, ih hxs]
    rw [if_neg (by omega), if_neg hx]

/-- Unfolding of `rfindIdx` on a cons cell. -/
theorem rfindIdx_cons (x : Char) (xs : List Char) (c : Char) :
    rfindIdx (x :: xs) c =
      if 0 ≤ rfindIdx xs c then rfindIdx xs c + 1
      else if x = c then 0 else -1 := rfl

/-- `rfind` finds the last occurrence: on `pre ++ c :: suf` with `c` absent
from `suf`, the answer is `pre.length`. -/
theorem rfindIdx_append_last : ∀ (pre : List Char) (c : Char) (suf : List Char),
    c ∉ suf → rfindIdx (pre ++ c :: suf) c = (pre.length : Int) := by
  intro pre c
  induction pre with
  | nil =>
    intro suf hsuf
    rw [List.nil_append, rfindIdx_cons, rfindIdx_of_not_mem suf c hsuf]
    rw [if_neg (by omega), if_pos rfl]
    rfl
  | cons a pre ih =>
    intro suf hsuf
    rw [List.cons_append, rfindIdx_cons, ih suf hsuf]
    rw [if_pos (show (0 : Int) ≤ (pre.length : Int) by omega)]
    simp only [List.length_cons]
    omega

/-- Unfolding of `splitWsGo` on a cons cell. -/
theorem splitWsGo_cons (c : Char) (l acc : List Char) :
    splitWsGo (c :: l) acc =
      if c.isWhitespace then
        (if acc.isEmpty then splitWsGo l [] else acc.reverse :: splitWsGo l [])
      else splitWsGo l (c :: acc) := rfl

/-- A run of non-whitespace characters is accumulated verbatim by the
split. -/
theorem splitWsGo_nonws_prefix : ∀ (w l acc : List Char),
    (∀ c ∈ w, c.isWhitespace = false) →
    splitWsGo (w ++ l) acc = splitWsGo l (w.reverse ++ acc) := by
  intro w
  induction w with
  | nil => intro l acc _; simp
  | cons c w ih =>
    intro l acc hw
    have hc : c.isWhitespace = false := hw c (List.mem_cons_self c w)
    rw [List.cons_append, splitWsGo_cons, if_neg (by simp [hc])]
    rw [ih l (c :: acc) (fun x hx => hw x (List.mem_cons_of_mem c hx))]
    simp

/-- Splitting skips a leading whitespace character. -/
theorem splitWs_ws_head (c : Char) (l : List Char) (h : c.isWhitespace = true) :
    splitWs (c :: l) = splitWs l := by
  simp [splitWs, splitWsGo, h]

/-- Splitting a non-empty non-whitespace word followed by nothing or a
whitespace-led remainder yields the word and the split of the remainder. -/
theorem splitWs_word_append (w r : List Char) (hw : w ≠ [])
    (hnw : ∀ c ∈ w, c.isWhitespace = false)
    (hr : r = [] ∨ ∃ c r', r = c :: r' ∧ c.isWhitespace = true) :
    splitWs (w ++ r) = w :: splitWs r := by
  have hbase : splitWs (w ++ r) = splitWsGo r w.reverse := by
    rw [splitWs, splitWsGo_nonws_prefix w r [] hnw, List.append_nil]
  have hrevne : w.reverse.isEmpty = false := by
    cases hrev : w.reverse with
    | nil => exact absurd (List.reverse_eq_nil_iff.mp hrev) hw
    | cons x xs => rfl
  rcases hr with rfl | ⟨c, r', rfl, hc⟩
  · rw [hbase]
    simp only [splitWsGo, hrevne, Bool.false_eq_true, if_false,
      List.reverse_reverse]
    rfl
  · rw [hbase]
    simp only [splitWsGo, hc, hrevne, Bool.false_eq_true, if_false, if_true,
      List.reverse_reverse]
    rw [splitWs_ws_head c r' hc]
    rfl

/-- Digits are not whitespace. -/
theorem isDigit_not_ws (c : Char) (h : c.isDigit = true) :
    c.isWhitespace = false := by
  by_contra hw
  rw [Bool.not_eq_false] at hw
  simp only [Char.isWhitespace, Bool.or_eq_true, decide_eq_true_eq] at hw
  rcases hw with ((rfl | rfl) | rfl) | rfl <;> exact absurd h (by decide)

/-- C3: `_read_ppid` against the stat-file grammar.  (1) On well-formed
content `<pid> (<comm>) <state> <ppid> ...` — here `pre` stands for the
whole prefix `<pid> (<comm>` so `comm` may freely contain whitespace and
`)` characters — where the delimiting `)` is the last `)` of the text, the
function returns the `<ppid>` field's value.  (2) Whenever the
locate-last-`)`-and-split parse does not yield a digit string in the
expected position (including empty content), it returns the sentinel `-1`.
(3) `get_proc_node` normalizes the `-1` sentinel to `0`. -/
theorem read_ppid_spec :
    (∀ pre state ppidStr rest : List Char,
      rparenChar ∉ state → rparenChar ∉ ppidStr → rparenChar ∉ rest →
      state ≠ [] → (∀ c ∈ state, c.isWhitespace = false) →
      ppidStr ≠ [] → (∀ c ∈ ppidStr, c.isDigit = true) →
      (rest = [] ∨ ∃ c r', rest = c :: r' ∧ c.isWhitespace = true) →
      read_ppid (String.mk (pre ++ rparenChar :: ' ' ::
        (state ++ ' ' :: (ppidStr ++ rest)))) =
        Int.ofNat (digitsToNat ppidStr)) ∧
    (∀ stat : String, (∀ n : Nat, ¬statParseYields stat.data n) →
      read_ppid stat = -1) ∧
    (∀ (fs : ProcFS) (p : Int) (node : ProcNode),
      get_proc_node fs p = some node → read_ppid (fs.statFile p) = -1 →
      node.ppid = 0) := by
  refine ⟨?_, ?_, ?_⟩
  · intro pre state ppidStr rest hp1 hp2 hp3 hsne hsnw hpne hpdig hrest
    have hT : rparenChar ∉ (' ' :: (state ++ ' ' :: (ppidStr ++ rest))) := by
      intro hm
      rcases List.mem_cons.mp hm with he | hm
      · exact absurd he (by decide)
      rcases List.mem_append.mp hm with hm | hm
      · exact hp1 hm
      rcases List.mem_cons.mp hm with he | hm
      · exact absurd he (by decide)
      rcases List.mem_append.mp hm with hm | hm
      · exact hp2 hm
      · exact hp3 hm
    have hfind := rfindIdx_append_last pre rparenChar _ hT
    have hdig_ne_ws : ∀ c ∈ ppidStr, c.isWhitespace = false :=
      fun c hc => isDigit_not_ws c (hpdig c hc)
    have hsplit : splitWs (state ++ ' ' :: (ppidStr ++ rest)) =
        state :: ppidStr :: splitWs rest := by
      rw [splitWs_word_append state (' ' :: (ppidStr ++ rest)) hsne hsnw
        (Or.inr ⟨' ', ppidStr ++ rest, rfl, by decide⟩)]
      rw [splitWs_ws_head ' ' (ppidStr ++ rest) (by decide)]
      rw [splitWs_word_append ppidStr rest hpne hdig_ne_ws hrest]
    have hisEmpty : (pre ++ rparenChar :: ' ' ::
        (state ++ ' ' :: (ppidStr ++ rest))).isEmpty = false := by
      cases pre <;> rfl
    have hfields : statFields (pre ++ rparenChar :: ' ' ::
        (state ++ ' ' :: (ppidStr ++ rest))) =
        state :: ppidStr :: splitWs rest := by
      unfold statFields
      rw [hfind]
      rw [show (((pre.length : Int)) + 2).toNat = pre.length + 2 by omega]
      rw [show pre ++ rparenChar :: ' ' :: (state ++ ' ' :: (ppidStr ++ rest)) =
        (pre ++ [rparenChar, ' ']) ++ (state ++ ' ' :: (ppidStr ++ rest)) by simp]
      rw [show pre.length + 2 = (pre ++ [rparenChar, ' ']).length by simp]
      rw [List.drop_left]
      exact hsplit
    have hpy : pyIsDigit ppidStr = true := by
      have h1 : ppidStr.isEmpty = false := by
        cases ppidStr with
        | nil => exact absurd rfl hpne
        | cons a l => rfl
      unfold pyIsDigit
      rw [h1]
      simp only [Bool.not_false, Bool.true_and, List.all_eq_true,
        decide_eq_true_eq]
      exact hpdig
    have hdata : (String.mk (pre ++ rparenChar :: ' ' ::
        (state ++ ' ' :: (ppidStr ++ rest)))).data =
        pre ++ rparenChar :: ' ' :: (state ++ ' ' :: (ppidStr ++ rest)) := rfl
    unfold read_ppid
    simp only [hdata, hisEmpty, Bool.false_eq_true, if_false, hfields, hpy,
      if_true]
  · intro stat hno
    unfold read_ppid
    cases hempty : stat.data.isEmpty with
    | true => simp [hempty]
    | false =>
      simp only [hempty, Bool.false_eq_true, if_false]
      cases hf : statFields stat.data with
      | nil => simp only [hf]
      | cons f0 tl =>
        cases tl with
        | nil => simp only [hf]
        | cons f1 rest2 =>
          cases hd : pyIsDigit f1 with
          | false => simp [hf, hd]
          | true =>
            exfalso
            exact hno (digitsToNat f1) ⟨f0, f1, rest2, hf, hd, rfl⟩
  · intro fs p node hnode hneg
    simp only [get_proc_node] at hnode
    split at hnode
    · exact absurd hnode (by simp)
    · split at hnode
      · exact absurd hnode (by simp)
      · simp only [Option.some.injEq] at hnode
        subst hnode
        simp [hneg]

/-- Witness for C3: on the concrete stat text `12 (a b) S 34 56` — a comm
containing a space — the parser returns ppid 34; the decomposition used is
pre = `12 (a b`, state = `S`, ppid = `34`, rest = ` 56`. -/
theorem read_ppid_spec_witness :
    read_ppid (String.mk ("12 (a b".data ++ rparenChar :: ' ' ::
      (['S'] ++ ' ' :: (['3', '4'] ++ (' ' :: "56".data))))) =
      Int.ofNat (digitsToNat ['3', '4']) :=
  read_ppid_spec.1 "12 (a b".data ['S'] ['3', '4'] (' ' :: "56".data)
    (by decide) (by decide) (by decide) (by decide) (by decide) (by decide)
    (by decide) (Or.inr ⟨' ', "56".data, rfl, by decide⟩)

/-! ## Lemmas about the timestamp rendering and parsing -/

/-- Decimal digit characters register as digits. -/
theorem digitChar_isDigit (m : Nat) (h : m < 10) :
    (Nat.digitChar m).isDigit = true := by
  interval_cases m <;> decide

/-- Decimal digit characters decode back to their value. -/
theorem digitChar_toNat (m : Nat) (h : m < 10) :
    (Nat.digitChar m).toNat - 48 = m := by
  interval_cases m <;> decide

/-- Decimal digit characters are never `Z`. -/
theorem digitChar_ne_Z (m : Nat) (h : m < 10) : Nat.digitChar m ≠ 'Z' := by
  interval_cases m <;> decide

/-- `padDigits` in head form: most significant digit first. -/
theorem padDigits_succ (k : Nat) : ∀ n : Nat,
    padDigits (k + 1) n =
      Nat.digitChar (n / 10 ^ k % 10) :: padDigits k (n % 10 ^ k) := by
  induction k with
  | zero =>
    intro n
    show padDigits 0 (n / 10) ++ [Nat.digitChar (n % 10)] = _
    simp [padDigits]
  | succ k ih =>
    intro n
    show padDigits (k + 1) (n / 10) ++ [Nat.digitChar (n % 10)] = _
    rw [ih (n / 10)]
    rw [show padDigits (k + 1) (n % 10 ^ (k + 1)) =
      padDigits k (n % 10 ^ (k + 1) / 10) ++
        [Nat.digitChar (n % 10 ^ (k + 1) % 10)] from rfl]
    have hA : n / 10 / 10 ^ k = n / 10 ^ (k + 1) := by
      rw [Nat.div_div_eq_div_mul, ← Nat.pow_succ']
    have hB : n / 10 % 10 ^ k = n % 10 ^ (k + 1) / 10 := by
      rw [Nat.pow_succ']
      exact (Nat.mod_mul_right_div_self n 10 (10 ^ k)).symm
    have hC : n % 10 = n % 10 ^ (k + 1) % 10 :=
      (Nat.mod_mod_of_dvd n (dvd_pow_self 10 (Nat.succ_ne_zero k))).symm
    rw [hA, hB, hC]
    rfl

/-- The fixed-width digit parser inverts the zero-padded renderer, modulo
`10 ^ k`. -/
theorem parseDigitsAux_pad : ∀ (k n acc : Nat) (rest : List Char),
    parseDigitsAux k (padDigits k n ++ rest) acc =
      some (acc * 10 ^ k + n % 10 ^ k, rest) := by
  intro k
  induction k with
  | zero =>
    intro n acc rest
    simp [padDigits, parseDigitsAux, Nat.mod_one]
  | succ k ih =>
    intro n acc rest
    rw [padDigits_succ, List.cons_append]
    have hd : n / 10 ^ k % 10 < 10 := Nat.mod_lt _ (by norm_num)
    rw [show parseDigitsAux (k + 1)
        (Nat.digitChar (n / 10 ^ k % 10) ::
          (padDigits k (n % 10 ^ k) ++ rest)) acc =
        (if (Nat.digitChar (n / 10 ^ k % 10)).isDigit then
          parseDigitsAux k (padDigits k (n % 10 ^ k) ++ rest)
            (acc * 10 + ((Nat.digitChar (n / 10 ^ k % 10)).toNat - 48))
        else none) from rfl]
    rw [if_pos (digitChar_isDigit _ hd), digitChar_toNat _ hd, ih]
    have hmm : n % 10 ^ k % 10 ^ k = n % 10 ^ k := Nat.mod_mod_of_dvd n dvd_rfl
    have hkey : n % 10 ^ (k + 1) = 10 ^ k * (n / 10 ^ k % 10) + n % 10 ^ k := by
      have h1 := Nat.div_add_mod (n % 10 ^ (k + 1)) (10 ^ k)
      have h2 : n % 10 ^ (k + 1) / 10 ^ k = n / 10 ^ k % 10 := by
        rw [Nat.pow_succ]
        exact Nat.mod_mul_right_div_self n (10 ^ k) 10
      have h3 : n % 10 ^ (k + 1) % 10 ^ k = n % 10 ^ k :=
        Nat.mod_mod_of_dvd n ⟨10, Nat.pow_succ 10 k⟩
      rw [h2, h3] at h1
      omega
    rw [hmm, hkey, Nat.pow_succ]
    have : (acc * 10 + n / 10 ^ k % 10) * 10 ^ k + n % 10 ^ k =
        acc * (10 ^ k * 10) + (10 ^ k * (n / 10 ^ k % 10) + n % 10 ^ k) := by
      ring
    rw [this]

/-- The digit parser recovers exactly the rendered value when it is within
range. -/
theorem parseDigits_pad (k n : Nat) (rest : List Char) (h : n < 10 ^ k) :
    parseDigits k (padDigits k n ++ rest) = some (n, rest) := by
  unfold parseDigits
  rw [parseDigitsAux_pad]
  simp [Nat.mod_eq_of_lt h]

/-- `padDigits` always renders exactly `k` characters. -/
theorem padDigits_length : ∀ (k n : Nat), (padDigits k n).length = k := by
  intro k
  induction k with
  | zero => intro n; rfl
  | succ k ih =>
    intro n
    show (padDigits k (n / 10) ++ [Nat.digitChar (n % 10)]).length = k + 1
    simp [ih]

/-- `padDigits` renders digit characters only. -/
theorem padDigits_isDigit : ∀ (k n : Nat), ∀ c ∈ padDigits k n,
    c.isDigit = true := by
  intro k
  induction k with
  | zero => intro n c hc; exact absurd hc (List.not_mem_nil c)
  | succ k ih =>
    intro n c hc
    rw [show padDigits (k + 1) n =
      padDigits k (n / 10) ++ [Nat.digitChar (n % 10)] from rfl] at hc
    rcases List.mem_append.mp hc with hc | hc
    · exact ih (n / 10) c hc
    · rw [List.mem_singleton.mp hc]
      exact digitChar_isDigit _ (Nat.mod_lt _ (by norm_num))

/-- Characters of `padDigits` are never `Z`. -/
theorem padDigits_ne_Z (k n : Nat) : 'Z' ∉ padDigits k n := by
  intro hm
  have := padDigits_isDigit k n 'Z' hm
  exact absurd this (by decide)

/-- Matching a fixed character succeeds on itself. -/
theorem expectChar_cons_self (c : Char) (l : List Char) :
    expectChar c (c :: l) = some l := by
  simp [expectChar]

/-- A whitespace-free prefix of satisfied characters is taken whole, and
dropping stops at the first failing character. -/
theorem takeWhile_dropWhile_append (p : Char → Bool) :
    ∀ (w : List Char) (c : Char) (r : List Char),
      (∀ x ∈ w, p x = true) → p c = false →
      (w ++ c :: r).takeWhile p = w ∧ (w ++ c :: r).dropWhile p = c :: r := by
  intro w
  induction w with
  | nil =>
    intro c r _ hc
    constructor
    · simp [List.takeWhile_cons, hc]
    · simp [List.dropWhile_cons, hc]
  | cons a w ih =>
    intro c r hw hc
    have ha : p a = true := hw a (List.mem_cons_self a w)
    have hrec := ih c r (fun x hx => hw x (List.mem_cons_of_mem a hx)) hc
    constructor
    · simp [List.takeWhile_cons, ha, hrec.1]
    · simp [List.dropWhile_cons, ha, hrec.2]

/-- `parseFraction` passes through a list not starting with a dot. -/
theorem parseFraction_nondot (c : Char) (l : List Char)
    (h : ¬c = Char.ofNat 46) : parseFraction (c :: l) = some (c :: l) := by
  simp [parseFraction, h]

/-- `replaceZ` leaves `Z`-free text unchanged. -/
theorem replaceZ_of_not_mem : ∀ l : List Char, 'Z' ∉ l → replaceZ l = l := by
  intro l
  induction l with
  | nil => intro _; rfl
  | cons c rest ih =>
    intro h
    have hc : ¬c = 'Z' := fun hh => h (hh ▸ List.mem_cons_self c rest)
    have hrest : 'Z' ∉ rest := fun hh => h (List.mem_cons_of_mem c hh)
    show (if c = 'Z' then "+00:00".data else [c]) ++ replaceZ rest = c :: rest
    rw [if_neg hc, ih hrest]
    rfl

/-- `replaceZ` distributes over append. -/
theorem replaceZ_append (a b : List Char) :
    replaceZ (a ++ b) = replaceZ a ++ replaceZ b :=
  List.flatMap_append a b _

/-- `daysInMonth` never exceeds 31. -/
theorem daysInMonth_le (y m : Nat) : daysInMonth y m ≤ 31 := by
  unfold daysInMonth
  split
  · split <;> omega
  · split <;> omega

/-- `parseHMS` inverts the rendered `HH:MM:SS`. -/
theorem parseHMS_pad (hh mm ss : Nat) (rest : List Char)
    (hhh : hh < 24) (hmm : mm < 60) (hss : ss < 60) :
    parseHMS (padDigits 2 hh ++ Char.ofNat 58 ::
      (padDigits 2 mm ++ Char.ofNat 58 :: (padDigits 2 ss ++ rest))) =
      some (hh, mm, ss, rest) := by
  unfold parseHMS
  rw [parseDigits_pad 2 hh _ (by omega)]
  simp only []
  rw [expectChar_cons_self]
  simp only []
  rw [parseDigits_pad 2 mm _ (by omega)]
  simp only []
  rw [expectChar_cons_self]
  simp only []
  rw [parseDigits_pad 2 ss _ (by omega)]
  simp only []
  rw [if_pos (by simp [hhh, hmm, hss])]

/-- `parseFraction` consumes a dot followed by one to six digits. -/
theorem parseFraction_digits (w : List Char) (c : Char) (r : List Char)
    (hw : ∀ x ∈ w, x.isDigit = true) (hc : c.isDigit = false)
    (hlen : 1 ≤ w.length ∧ w.length ≤ 6) :
    parseFraction (Char.ofNat 46 :: (w ++ c :: r)) = some (c :: r) := by
  have htd := takeWhile_dropWhile_append Char.isDigit w c r hw hc
  show (if Char.ofNat 46 = Char.ofNat 46 then
      if (decide (1 ≤ ((w ++ c :: r).takeWhile Char.isDigit).length) &&
          decide (((w ++ c :: r).takeWhile Char.isDigit).length ≤ 6)) = true then
        some ((w ++ c :: r).dropWhile Char.isDigit)
      else none
    else some (Char.ofNat 46 :: (w ++ c :: r))) = some (c :: r)
  rw [if_pos rfl, htd.1, htd.2, if_pos (by simp [hlen.1, hlen.2])]

/-- The clock's ISO-8601 rendition always passes `parse_iso8601`: the `Z`
suffix is replaced by `+00:00` and the canonical date/time text parses
back. -/
theorem parse_utc_now_iso (t : Instant) (h : t.valid) :
    parse_iso8601 (JVal.str (utc_now_iso t)) = true := by
  obtain ⟨h1, h2, h3, h4, h5, h6, h7, h8, h9, h10⟩ := h
  set F : List Char :=
    if t.usec = 0 then [] else Char.ofNat 46 :: padDigits 6 t.usec with hF
  have hdata : (utc_now_iso t).data =
      (padDigits 4 t.year ++ [Char.ofNat 45] ++ padDigits 2 t.month ++
        [Char.ofNat 45] ++ padDigits 2 t.day ++ [Char.ofNat 84] ++
        padDigits 2 t.hour ++ [Char.ofNat 58] ++ padDigits 2 t.minute ++
        [Char.ofNat 58] ++ padDigits 2 t.second ++ F) ++ ['Z'] := rfl
  have hZF : 'Z' ∉ F := by
    rw [hF]
    split
    · exact List.not_mem_nil 'Z'
    · intro hm
      rcases List.mem_cons.mp hm with he | hm
      · exact absurd he (by decide)
      · exact padDigits_ne_Z 6 t.usec hm
  have hZfree : 'Z' ∉ (padDigits 4 t.year ++ [Char.ofNat 45] ++
      padDigits 2 t.month ++ [Char.ofNat 45] ++ padDigits 2 t.day ++
      [Char.ofNat 84] ++ padDigits 2 t.hour ++ [Char.ofNat 58] ++
      padDigits 2 t.minute ++ [Char.ofNat 58] ++ padDigits 2 t.second ++ F) := by
    intro hm
    simp only [List.mem_append] at hm
    rcases hm with ((((((((((hm | hm) | hm) | hm) | hm) | hm) | hm) | hm) |
      hm) | hm) | hm) | hm
    · exact padDigits_ne_Z 4 t.year hm
    · exact absurd hm (by decide)
    · exact padDigits_ne_Z 2 t.month hm
    · exact absurd hm (by decide)
    · exact padDigits_ne_Z 2 t.day hm
    · exact absurd hm (by decide)
    · exact padDigits_ne_Z 2 t.hour hm
    · exact absurd hm (by decide)
    · exact padDigits_ne_Z 2 t.minute hm
    · exact absurd hm (by decide)
    · exact padDigits_ne_Z 2 t.second hm
    · exact hZF hm
  have hfrac : parseFraction (F ++ (Char.ofNat 43 :: '0' :: '0' ::
      Char.ofNat 58 :: '0' :: '0' :: [])) =
      some (Char.ofNat 43 :: '0' :: '0' :: Char.ofNat 58 :: '0' :: '0' :: []) := by
    by_cases hu : t.usec = 0
    · rw [show F = [] from by rw [hF]; exact if_pos hu, List.nil_append]
      exact parseFraction_nondot _ _ (by decide)
    · rw [show F = Char.ofNat 46 :: padDigits 6 t.usec from by
        rw [hF]; exact if_neg hu, List.cons_append]
      exact parseFraction_digits (padDigits 6 t.usec) (Char.ofNat 43) _
        (padDigits_isDigit 6 t.usec) (by decide)
        (by rw [padDigits_length]; omega)
  unfold parse_iso8601
  simp only []
  rw [hdata, if_pos (List.getLast?_concat _)]
  rw [replaceZ_append, replaceZ_of_not_mem _ hZfree]
  rw [show replaceZ ['Z'] = Char.ofNat 43 :: '0' :: '0' :: Char.ofNat 58 ::
    '0' :: '0' :: [] from by decide]
  simp only [List.append_assoc, List.singleton_append, List.cons_append,
    List.nil_append]
  unfold fromisoformatOk
  rw [parseDigits_pad 4 t.year _ (by omega)]
  simp only []
  rw [expectChar_cons_self]
  simp only []
  rw [parseDigits_pad 2 t.month _ (by omega)]
  simp only []
  rw [expectChar_cons_self]
  simp only []
  rw [parseDigits_pad 2 t.day _
    (by have := daysInMonth_le t.year t.month; omega)]
  simp only []
  rw [if_neg (by simp [h1, h3, h4, h5, h6])]
  rw [parseHMS_pad t.hour t.minute t.second _ h7 h8 h9]
  simp only []
  rw [hfrac]
  simp only []
  rw [show parseOffset (Char.ofNat 43 :: '0' :: '0' :: Char.ofNat 58 ::
    '0' :: '0' :: []) = some [] from by decide]

/-- Normalization leaves every key other than `ts`/`source` bound as
before. -/
theorem normalize_getEntry_other (nowStr : String) (raw : EventDict)
    (k : String) (hk1 : k ≠ "ts") (hk2 : k ≠ "source") :
    getEntry (normalize_event nowStr raw) k = getEntry raw k := by
  set e1 := if !hasKey raw "ts" || !is_non_empty_str (getV raw "ts") then
    setKey raw "ts" (.str nowStr) else raw with he1
  have hnorm : normalize_event nowStr raw =
      (if !hasKey e1 "source" || !is_non_empty_str (getV e1 "source") then
        setKey e1 "source" (.str "stdin") else e1) := rfl
  have step1 : getEntry e1 k = getEntry raw k := by
    rw [he1]
    split
    · exact getEntry_setKey_ne raw "ts" k _ hk1
    · rfl
  rw [hnorm]
  split
  · rw [getEntry_setKey_ne e1 "source" k _ hk2]
    exact step1
  · exact step1

/-- The `ts` binding after normalization: filled with the clock exactly when
absent-or-blank, untouched otherwise. -/
theorem normalize_ts_eq (nowStr : String) (raw : EventDict) :
    getEntry (normalize_event nowStr raw) "ts" =
      if !hasKey raw "ts" || !is_non_empty_str (getV raw "ts") then
        some (.str nowStr)
      else getEntry raw "ts" := by
  set e1 := if !hasKey raw "ts" || !is_non_empty_str (getV raw "ts") then
    setKey raw "ts" (.str nowStr) else raw with he1
  have hnorm : normalize_event nowStr raw =
      (if !hasKey e1 "source" || !is_non_empty_str (getV e1 "source") then
        setKey e1 "source" (.str "stdin") else e1) := rfl
  have hts1 : getEntry e1 "ts" =
      if !hasKey raw "ts" || !is_non_empty_str (getV raw "ts") then
        some (.str nowStr)
      else getEntry raw "ts" := by
    rw [he1]
    by_cases hc : (!hasKey raw "ts" || !is_non_empty_str (getV raw "ts")) = true
    · rw [if_pos hc, if_pos hc, getEntry_setKey_self]
    · rw [if_neg hc, if_neg hc]
  rw [hnorm]
  split
  · rw [getEntry_setKey_ne e1 "source" "ts" _ (by decide)]
    exact hts1
  · exact hts1

/-- The `source` binding after normalization: filled with `stdin` exactly
when absent-or-blank, untouched otherwise. -/
theorem normalize_source_eq (nowStr : String) (raw : EventDict) :
    getEntry (normalize_event nowStr raw) "source" =
      if !hasKey raw "source" || !is_non_empty_str (getV raw "source") then
        some (.str "stdin")
      else getEntry raw "source" := by
  set e1 := if !hasKey raw "ts" || !is_non_empty_str (getV raw "ts") then
    setKey raw "ts" (.str nowStr) else raw with he1
  have hnorm : normalize_event nowStr raw =
      (if !hasKey e1 "source" || !is_non_empty_str (getV e1 "source") then
        setKey e1 "source" (.str "stdin") else e1) := rfl
  have hpres : getEntry e1 "source" = getEntry raw "source" := by
    rw [he1]
    split
    · exact getEntry_setKey_ne raw "ts" "source" _ (by decide)
    · rfl
  have hk : hasKey e1 "source" = hasKey raw "source" := by
    rw [hasKey, hasKey, hpres]
  have hv : getV e1 "source" = getV raw "source" := by
    rw [getV, getV, hpres]
  rw [hnorm, hk, hv]
  by_cases hc : (!hasKey raw "source" || !is_non_empty_str (getV raw "source")) = true
  · rw [if_pos hc, if_pos hc, getEntry_setKey_self]
  · rw [if_neg hc, if_neg hc]
    exact hpres

/-- After normalization the `ts` key is always present. -/
theorem normalize_hasKey_ts (nowStr : String) (raw : EventDict) :
    hasKey (normalize_event nowStr raw) "ts" = true := by
  rw [hasKey, normalize_ts_eq]
  by_cases hc : (!hasKey raw "ts" || !is_non_empty_str (getV raw "ts")) = true
  · rw [if_pos hc]
    rfl
  · rw [if_neg hc]
    cases hhk : hasKey raw "ts" with
    | false =>
      exfalso
      apply hc
      rw [hhk]
      rfl
    | true => exact hhk

/-- After normalization the `source` key is always present. -/
theorem normalize_hasKey_source (nowStr : String) (raw : EventDict) :
    hasKey (normalize_event nowStr raw) "source" = true := by
  rw [hasKey, normalize_source_eq]
  by_cases hc : (!hasKey raw "source" || !is_non_empty_str (getV raw "source")) = true
  · rw [if_pos hc]
    rfl
  · rw [if_neg hc]
    cases hhk : hasKey raw "source" with
    | false =>
      exfalso
      apply hc
      rw [hhk]
      rfl
    | true => exact hhk

/-- C5: a raw event whose `ts` and/or `source` is absent-or-blank (each
either fillable or already valid) and whose remaining fields pass all the
validation checks validates after normalization: the clock-filled `ts`
passes the timestamp check and the filled `source` value `stdin` is in the
allowed enumeration. -/
theorem normalize_then_validate_ok (raw : EventDict) (t : Instant)
    (hv : t.valid)
    (hts : (!hasKey raw "ts" || !is_non_empty_str (getV raw "ts")) = true ∨
      parse_iso8601 (getV raw "ts") = true)
    (hsrc : (!hasKey raw "source" || !is_non_empty_str (getV raw "source")) = true ∨
      jvalInStrSet (getV raw "source") ALLOWED_SOURCES = true)
    (hket : hasKey raw "event_type" = true)
    (hvet : jvalInStrSet (getV raw "event_type") ALLOWED_EVENT_TYPES = true)
    (hkpid : hasKey raw "pid" = true)
    (hvpid : is_int_like (getV raw "pid") = true)
    (hkppid : hasKey raw "ppid" = true)
    (hvppid : is_int_like (getV raw "ppid") = true)
    (hkuid : hasKey raw "uid" = true)
    (hvuid : is_int_like (getV raw "uid") = true)
    (hkcomm : hasKey raw "comm" = true)
    (hvcomm : is_non_empty_str (getV raw "comm") = true)
    (hkexe : hasKey raw "exe" = true)
    (hvexe : is_non_empty_str (getV raw "exe") = true)
    (hktarget : hasKey raw "target" = true)
    (hvtarget : is_non_empty_str (getV raw "target") = true)
    (htags : hasKey raw "tags" = true →
      (match getV raw "tags" with | JVal.arr _ => true | _ => false) = true)
    (hmeta : hasKey raw "meta" = true →
      (match getV raw "meta" with | JVal.obj _ => true | _ => false) = true) :
    (validate_event (normalize_event (utc_now_iso t) raw)).ok = true ∧
    parse_iso8601 (JVal.str (utc_now_iso t)) = true ∧
    jvalInStrSet (JVal.str "stdin") ALLOWED_SOURCES = true := by
  refine ⟨?_, parse_utc_now_iso t hv, by decide⟩
  set evt := normalize_event (utc_now_iso t) raw with hevt
  have hother : ∀ k : String, k ≠ "ts" → k ≠ "source" →
      getEntry evt k = getEntry raw k :=
    fun k hk1 hk2 => normalize_getEntry_other _ raw k hk1 hk2
  have hotherK : ∀ k : String, k ≠ "ts" → k ≠ "source" →
      hasKey evt k = hasKey raw k := by
    intro k hk1 hk2
    rw [hasKey, hasKey, hother k hk1 hk2]
  have hotherV : ∀ k : String, k ≠ "ts" → k ≠ "source" →
      getV evt k = getV raw k := by
    intro k hk1 hk2
    rw [getV, getV, hother k hk1 hk2]
  have hkeys : ∀ k ∈ requiredFields, hasKey evt k = true := by
    intro k hk
    simp only [requiredFields, List.mem_cons, List.not_mem_nil, or_false] at hk
    rcases hk with rfl | rfl | rfl | rfl | rfl | rfl | rfl | rfl | rfl
    · exact normalize_hasKey_ts _ _
    · rw [hotherK "event_type" (by decide) (by decide)]
      exact hket
    · rw [hotherK "pid" (by decide) (by decide)]
      exact hkpid
    · rw [hotherK "ppid" (by decide) (by decide)]
      exact hkppid
    · rw [hotherK "uid" (by decide) (by decide)]
      exact hkuid
    · rw [hotherK "comm" (by decide) (by decide)]
      exact hkcomm
    · rw [hotherK "exe" (by decide) (by decide)]
      exact hkexe
    · rw [hotherK "target" (by decide) (by decide)]
      exact hktarget
    · exact normalize_hasKey_source _ _
  have hfind : requiredFields.find? (fun k => !hasKey evt k) = none :=
    List.find?_eq_none.mpr (fun k hk => by rw [hkeys k hk]; simp)
  have hts' : parse_iso8601 (getV evt "ts") = true := by
    rw [getV, hevt, normalize_ts_eq]
    by_cases hc : (!hasKey raw "ts" || !is_non_empty_str (getV raw "ts")) = true
    · rw [if_pos hc]
      exact parse_utc_now_iso t hv
    · rw [if_neg hc]
      rcases hts with hcc | hok
      · exact absurd hcc hc
      · exact hok
  have het' : jvalInStrSet (getV evt "event_type") ALLOWED_EVENT_TYPES = true := by
    rw [hotherV "event_type" (by decide) (by decide)]
    exact hvet
  have hints : (["pid", "ppid", "uid"].find?
      (fun k => !is_int_like (getV evt k))) = none := by
    apply List.find?_eq_none.mpr
    intro k hk
    simp only [List.mem_cons, List.not_mem_nil, or_false] at hk
    rcases hk with rfl | rfl | rfl
    · rw [hotherV "pid" (by decide) (by decide), hvpid]
      simp
    · rw [hotherV "ppid" (by decide) (by decide), hvppid]
      simp
    · rw [hotherV "uid" (by decide) (by decide), hvuid]
      simp
  have hstrs : (["comm", "exe", "target"].find?
      (fun k => !is_non_empty_str (getV evt k))) = none := by
    apply List.find?_eq_none.mpr
    intro k hk
    simp only [List.mem_cons, List.not_mem_nil, or_false] at hk
    rcases hk with rfl | rfl | rfl
    · rw [hotherV "comm" (by decide) (by decide), hvcomm]
      simp
    · rw [hotherV "exe" (by decide) (by decide), hvexe]
      simp
    · rw [hotherV "target" (by decide) (by decide), hvtarget]
      simp
  have hsrc' : jvalInStrSet (getV evt "source") ALLOWED_SOURCES = true := by
    rw [getV, hevt, normalize_source_eq]
    by_cases hc : (!hasKey raw "source" || !is_non_empty_str (getV raw "source")) = true
    · rw [if_pos hc]
      decide
    · rw [if_neg hc]
      rcases hsrc with hcc | hok
      · exact absurd hcc hc
      · exact hok
  have htags' : (hasKey evt "tags" &&
      !(match getV evt "tags" with | JVal.arr _ => true | _ => false)) = false := by
    rw [hotherK "tags" (by decide) (by decide),
      hotherV "tags" (by decide) (by decide)]
    cases hk : hasKey raw "tags" with
    | false => rfl
    | true =>
      rw [htags hk]
      rfl
  have hmeta' : (hasKey evt "meta" &&
      !(match getV evt "meta" with | JVal.obj _ => true | _ => false)) = false := by
    rw [hotherK "meta" (by decide) (by decide),
      hotherV "meta" (by decide) (by decide)]
    cases hk : hasKey raw "meta" with
    | false => rfl
    | true =>
      rw [hmeta hk]
      rfl
  have hvv : validate_event evt = ⟨true, none⟩ := by
    unfold validate_event
    rw [hfind]
    simp only [hts', het', hints, hstrs, hsrc', htags', hmeta', Bool.not_true,
      Bool.false_eq_true, if_false]
  rw [hvv]

/-- Witness for C5: the concrete event with every required field but `ts`
and `source`, normalized at the concrete instant, validates. -/
theorem normalize_then_validate_ok_witness :
    (validate_event (normalize_event (utc_now_iso instDemo) evtGood)).ok = true ∧
    parse_iso8601 (JVal.str (utc_now_iso instDemo)) = true ∧
    jvalInStrSet (JVal.str "stdin") ALLOWED_SOURCES = true :=
  normalize_then_validate_ok evtGood instDemo (by decide)
    (Or.inl (by decide)) (Or.inl (by decide))
    (by decide) (by decide) (by decide) (by decide) (by decide) (by decide)
    (by decide) (by decide) (by decide) (by decide) (by decide) (by decide)
    (by decide) (by decide)
    (fun h => absurd h (by decide)) (fun h => absurd h (by decide))
